import Mathlib

/-!
Verification of the SIP-assembly pipeline of `gen-hathitrust-sip`.

This file gives a shallow embedding, in Lean 4, of the pure content of the
repository's Python sources:

* `util.py` — `split_zip` (archive splitter);
* `mets.py` / `metadata.py` — `get_file_ids` (structural metadata reader);
* `gen-hathitrust-sip.py` / `gen-ht-sip.py` — `remove_control_chars`
  (content cleaner), the sequential naming `f"{i:08d}"`, the per-page
  staging/checksum loop, the `pagedata` map and the manifest writer.

Side-effectful boundaries (filesystem, MD5, the YAML serializer, the Unicode
category table) are abstracted as parameters; everything algorithmic is
translated from the source.

Organization: all definitions first, then all theorems.  Python renders a
nonnegative integer under `f"{i:08d}"` in decimal with *at least* 8
characters, left-padded with `0`; `digitsAux` is a fuel-terminated version of
repeated division by ten (fuel `n` suffices since the digit count of `n` is
at most `n`), and `digitsMSF n` is the most-significant-first decimal digit
list of `n`, empty for `n = 0`.
-/

def digitsAux : Nat → Nat → List Nat
  | 0, _ => []
  | fuel + 1, n => if n = 0 then [] else digitsAux fuel (n / 10) ++ [n % 10]

/-- Most-significant-first decimal digits of `n` (empty list for `0`). -/
def digitsMSF (n : Nat) : List Nat :=
  digitsAux n n

/-- The ASCII character of a decimal digit. -/
def dChar (d : Nat) : Char :=
  Char.ofNat (48 + d)

/-- Python `str(n)` for a positive integer `n`: its decimal digit characters. -/
def decRepr (n : Nat) : String :=
  ⟨(digitsMSF n).map dChar⟩

/-- Python `f"{n:08d}"`: decimal rendering of `n` left-padded with `'0'`
to *at least* eight characters. -/
def pyFormat08 (n : Nat) : String :=
  ⟨List.replicate (8 - (digitsMSF n).length) '0' ++ (digitsMSF n).map dChar⟩

/-- The destination filename bases assigned to pages `1..N` by the loop
`for i, _ in enumerate(..., start=1): dst_base = f"{i:08d}..."` of
`gen-hathitrust-sip.py` (and `basename = f"{i:08d}"` of `gen-ht-sip.py`). -/
def seqNames (N : Nat) : List String :=
  (List.range N).map (fun k => pyFormat08 (k + 1))

/-- Destination filename of one artifact of page `i`:
`f"{i:08d}{ext}"` — the zero-padded base shared by all artifact kinds,
followed by the kind's extension. -/
def destFilename (i : Nat) (ext : String) : String :=
  pyFormat08 i ++ ext

/-! ## Archive splitter: `util.split_zip`

An archive entry carries its name, its bytes, and the (metadata) size that
`file_info.file_size` reports; a part carries the name the splitter gave it
(`f"part_{part_num}.zip"`) and its entries in order.
-/

structure ZEntry where
  name : String
  bytes : List Nat
  size : Nat
deriving DecidableEq, Repr

/-- Name of the `n`-th created part: Python `f"part_{part_num}.zip"`. -/
def mkPartName (n : Nat) : String :=
  "part_" ++ toString n ++ ".zip"

/-- Loop state of `split_zip`: closed parts (with their names), the open
part's name and entries (if a part is open), the open part's accumulated
size (`current_size`), and the next part number (`part_num`). -/
structure SplitState where
  parts : List (String × List ZEntry)
  cur : Option (String × List ZEntry)
  curSize : Nat
  partNum : Nat

/-- One iteration of the `for file_name in file_list` loop of `split_zip`:
a new part is begun if none is open or if adding the entry would drive the
open part past `maxSize`; the entry then goes into the open part. -/
def splitStep (maxSize : Nat) (st : SplitState) (e : ZEntry) : SplitState :=
  match st.cur with
  | none => ⟨st.parts, some (mkPartName st.partNum, [e]), e.size, st.partNum + 1⟩
  | some c =>
    if st.curSize + e.size > maxSize then
      ⟨st.parts ++ [c], some (mkPartName st.partNum, [e]), e.size, st.partNum + 1⟩
    else
      ⟨st.parts, some (c.1, c.2 ++ [e]), st.curSize + e.size, st.partNum⟩

/-- `util.split_zip`: distribute the entries of the input archive, in order,
over parts of total (metadata) size at most `maxSize`, starting a new part
whenever the next entry would not fit; the part open at loop end is closed.
Returns the parts in creation order, each with its filename. -/
def split_zip (entries : List ZEntry) (maxSize : Nat) : List (String × List ZEntry) :=
  let st := entries.foldl (splitStep maxSize) ⟨[], none, 0, 1⟩
  match st.cur with
  | none => st.parts
  | some c => st.parts ++ [c]

/-- Total `file_size` of a list of entries. -/
def sumSizes (l : List ZEntry) : Nat :=
  (l.map ZEntry.size).sum

/-- A part is admissible for ceiling `C`: its total size is at most `C`,
or it consists of a single entry that alone exceeds `C`. -/
def partOk (C : Nat) (l : List ZEntry) : Prop :=
  sumSizes l ≤ C ∨ ∃ e, l = [e] ∧ e.size > C

/-- All entries held by a loop state: entries of the closed parts, in order,
followed by the entries of the open part. -/
def stateEntries (st : SplitState) : List ZEntry :=
  (st.parts.map Prod.snd).flatten ++ (match st.cur with | none => [] | some c => c.2)

/-- Loop invariant for `split_zip`. -/
def SplitInv (C : Nat) (st : SplitState) : Prop :=
  (∀ p ∈ st.parts, partOk C p.2) ∧
  (∀ c, st.cur = some c →
    st.curSize = sumSizes c.2 ∧ partOk C c.2 ∧
    c.1 = mkPartName (st.parts.length + 1) ∧ st.partNum = st.parts.length + 2) ∧
  (st.cur = none → st.parts = [] ∧ st.partNum = 1) ∧
  st.parts.map Prod.fst = (List.range st.parts.length).map (fun k => mkPartName (k + 1))

/-- Value of a most-significant-first digit list. -/
def ofMSF (l : List Nat) : Nat :=
  l.foldl (fun acc d => 10 * acc + d) 0

/-- The digit list of `f"{n:08d}"` before character rendering: `digitsMSF n`
left-padded with zeros to at least eight digits. -/
def pad8 (n : Nat) : List Nat :=
  List.replicate (8 - (digitsMSF n).length) 0 ++ digitsMSF n

/-! ## Structural metadata reader: `get_file_ids`

`SourceEntityMets.get_file_ids` (`mets.py`) and `SourceEntityMETS.get_file_ids`
(`metadata.py`) are textually identical.  A qualifying leaf — a match of the
XPath `/mets/structMap/div/div/div[@ORDER]` — is modelled by its integer
`ORDER` attribute (Python `int(d.get("ORDER"))`) and the list of results of
`./fptr/@FILEID` in document order; a document is the list of qualifying
leaves in document (traversal) order.  `FILEID` values are character lists.
Python's `sorted` with key `int(ORDER)` is a stable sort, modelled by
`List.mergeSort`; `file_id[0]` on a leaf with no `fptr` raises `IndexError`,
modelled by `Except.error`.  (The `$` of `_[md]$` matching just before a
trailing newline of the attribute value is not modelled.)
-/

inductive MetsErr where
  | indexError
deriving DecidableEq, Repr

structure MetsLeaf where
  order : Int
  fileids : List (List Char)
deriving DecidableEq, Repr

/-- `re.sub(r"^f-", "", file_id)`: remove one leading `f-` if present. -/
def stripPrefixF : List Char → List Char
  | 'f' :: '-' :: rest => rest
  | l => l

/-- `re.sub(r"_[md]$", "", file_id)`: remove one trailing `_m` or `_d`
if present. -/
def stripSuffixMD (l : List Char) : List Char :=
  match l.reverse with
  | 'm' :: '_' :: r => r.reverse
  | 'd' :: '_' :: r => r.reverse
  | _ => l

/-- The two substitutions applied to each `FILEID`, in source order. -/
def stripFileId (l : List Char) : List Char :=
  stripSuffixMD (stripPrefixF l)

/-- The sort `sorted(self.root.xpath(xpath), key=lambda d: int(d.get("ORDER")))`. -/
def sortLeaves (leaves : List MetsLeaf) : List MetsLeaf :=
  leaves.mergeSort (fun a b => decide (a.order ≤ b.order))

/-- Body of the `for div in sorted(...)` loop: take `div.xpath("./fptr/@FILEID")[0]`
(raising `IndexError` when there is none), strip prefix and suffix, append. -/
def extractIds : List MetsLeaf → Except MetsErr (List (List Char))
  | [] => Except.ok []
  | d :: ds =>
    match d.fileids with
    | [] => Except.error MetsErr.indexError
    | f :: _ =>
      match extractIds ds with
      | Except.error e => Except.error e
      | Except.ok rest => Except.ok (stripFileId f :: rest)

/-- `get_file_ids`: sort the qualifying leaves by integer `ORDER`, then
extract and strip each leaf's first `FILEID`. -/
def get_file_ids (leaves : List MetsLeaf) : Except MetsErr (List (List Char)) :=
  extractIds (sortLeaves leaves)

/-! ## Content cleaner: `remove_control_chars`

`remove_control_chars` (both scripts) iterates over the lines of a text file
(`for line in in_fh`: segments up to and including each `'\n'`, plus a final
unterminated segment), removes every character of Unicode category C from the
line (`regex.sub(r"\p{C}", "", line)` — this includes the line's own `'\n'`,
which is category Cc), and writes the result followed by one `'\n'`.

The Unicode category-C table is abstracted as a predicate `isC`; every proof
only requires `isC '\n' = true` (newline *is* category Cc), which is taken as
a hypothesis.  Text-mode universal-newline translation is assumed already
applied, so `'\n'` is the only line separator.
-/

/-- Python text-file line iteration: split after each `'\n'` (the separator
stays on the line); a final unterminated segment is kept. -/
def pyLines : List Char → List (List Char)
  | [] => []
  | c :: cs =>
    if c = '\n' then ['\n'] :: pyLines cs
    else
      match pyLines cs with
      | [] => [[c]]
      | l :: ls => (c :: l) :: ls

/-- `remove_control_chars`: per line, drop the category-C characters and
append one `'\n'`; concatenate the results. -/
def remove_control_chars (isC : Char → Bool) (s : List Char) : List Char :=
  ((pyLines s).map (fun l => (l.filter (fun c => !isC c)) ++ ['\n'])).flatten

/-- A concrete instance of the category-C predicate: the Cc (control)
characters of Latin-1, used to instantiate witnesses. -/
def isCtrlAscii (c : Char) : Bool :=
  c.toNat < 32 || (127 ≤ c.toNat && c.toNat ≤ 159)

/-! ## Manifest builder and `pagedata`

`main` loads `meta.yml` both parsed (`meta`) and as literal text (`meta_str`),
then writes the new manifest as `meta_str.strip() + "\n"` followed by
`yaml.dump({"pagedata": page_data})`.  `page_data` maps the image artifact's
destination filename (`f"{i:08d}.jp2"`) to `{"orderlabel": str(i)}`, inserted
in page order; `yaml.dump` serializes mapping keys *sorted* (its default
`sort_keys=True`).  The YAML text serializer itself is abstracted; the
manifest is modelled as the stripped base text plus the key-sorted
`pagedata` association list.
-/

/-- Python `str.isspace` on the ASCII range: the characters removed by
`str.strip()`. -/
def isPyWs (c : Char) : Bool :=
  c = ' ' || c = '\t' || c = '\n' || c = '\r' || c = '\x0b' || c = '\x0c'

/-- Python `meta_str.strip()`: remove leading and trailing whitespace. -/
def pyStrip (l : List Char) : List Char :=
  ((l.dropWhile isPyWs).reverse.dropWhile isPyWs).reverse

/-- The `page_data` mapping for pages `1..n`, in insertion (page) order:
`page_data[f"{i:08d}.jp2"] = {"orderlabel": str(i)}`. -/
def pagedataEntries (n : Nat) : List (String × String) :=
  (List.range n).map (fun k => (destFilename (k + 1) ".jp2", decRepr (k + 1)))

/-- `yaml.dump`'s default `sort_keys=True`: mapping keys are emitted in
sorted order. -/
def yamlSortKeys (pd : List (String × String)) : List (String × String) :=
  pd.mergeSort (fun a b => decide (a.1 ≤ b.1))

/-- The manifest produced for a base document `metaStr` and `n` pages:
the stripped base text plus one newline, and the serialized `pagedata`. -/
def buildManifest (metaStr : List Char) (n : Nat) : List Char × List (String × String) :=
  (pyStrip metaStr ++ ['\n'], yamlSortKeys (pagedataEntries n))

/-! ## The per-page staging and checksum loop

Source artifacts of one page (the contents behind
`{file_id}_d.jp2`, `{file_id}_ocr.txt`, `{file_id}_ocr.hocr`) are a triple of
character lists; the MD5 function is abstracted (`md5`).  The loop stages,
per page `i` and in `HATHI_EXT` order, the image by reference and the two
text artifacts through `remove_control_chars`, writing one checksum line
`f"{calculate_md5(dst_file)} {dst_base}"` per staged file, and records the
image artifact in `page_data`.
-/

structure PageArtifacts where
  jp2 : List Char
  ocrTxt : List Char
  ocrHocr : List Char

/-- One checksum-ledger line: `f"{calculate_md5(dst_file)} {dst_base}"`. -/
def mkLine (md5 : List Char → String) (name : String) (content : List Char) : String :=
  md5 content ++ " " ++ name

/-- The files staged for page `i`, in `HATHI_EXT` iteration order:
the image is symlinked (bytes unchanged), text and OCR markup pass through
`remove_control_chars`. -/
def stagePage (isC : Char → Bool) (i : Nat) (p : PageArtifacts) : List (String × List Char) :=
  [(destFilename i ".jp2", p.jp2),
   (destFilename i ".txt", remove_control_chars isC p.ocrTxt),
   (destFilename i ".html", remove_control_chars isC p.ocrHocr)]

/-- The `for i, file_id in enumerate(..., start=1)` loop: returns the staged
files, the checksum-ledger lines (written immediately after each file is
staged), and the `page_data` entries, all in order. -/
def stageLoop (md5 : List Char → String) (isC : Char → Bool) :
    Nat → List PageArtifacts →
      List (String × List Char) × List String × List (String × String)
  | _, [] => ([], [], [])
  | i, p :: ps =>
    let files := stagePage isC i p
    let rest := stageLoop md5 isC (i + 1) ps
    (files ++ rest.1,
     files.map (fun f => mkLine md5 f.1 f.2) ++ rest.2.1,
     (destFilename i ".jp2", decRepr i) :: rest.2.2)

/-- The staging phase of `main`: run the page loop, then write the manifest
(`meta_str.strip() + "\n"` plus the serialized `pagedata`) and append its
checksum line last.  Returns (staged files, ledger lines). -/
def runPipeline (md5 : List Char → String) (isC : Char → Bool)
    (yamlPD : List (String × String) → List Char) (metaStr : List Char)
    (pages : List PageArtifacts) : List (String × List Char) × List String :=
  let r := stageLoop md5 isC 1 pages
  let manifest := pyStrip metaStr ++ '\n' :: yamlPD (yamlSortKeys r.2.2)
  (r.1 ++ [("meta.yml", manifest)], r.2.1 ++ [mkLine md5 "meta.yml" manifest])

/-! ## Splitter invocation threshold

`main` computes `size_gb = os.path.getsize(...) / (1024**3)` and calls the
splitter iff `size_gb > 15`.  The float division by the power of two
`1024**3` is exact for any realistic file size (the mantissa of a size below
`2^53` is preserved), so the comparison is modelled exactly over `ℚ`.
-/

/-- `size_gb`: the archive size in GiB. -/
def sizeGb (bytes : Nat) : ℚ :=
  (bytes : ℚ) / 1024 ^ 3

/-- The guard `if size_gb > 15` around `util.split_zip(output_zip_file)`. -/
def splitterInvoked (bytes : Nat) : Bool :=
  decide (sizeGb bytes > 15)

theorem sumSizes_append (l : List ZEntry) (e : ZEntry) :
    sumSizes (l ++ [e]) = sumSizes l + e.size := by
  simp [sumSizes]

theorem partOk_single (C : Nat) (e : ZEntry) : partOk C [e] := by
  by_cases h : e.size ≤ C
  · exact Or.inl (by simpa [sumSizes] using h)
  · exact Or.inr ⟨e, rfl, by omega⟩

theorem splitStep_inv (C : Nat) (st : SplitState) (e : ZEntry) (h : SplitInv C st) :
    SplitInv C (splitStep C st e) ∧
    stateEntries (splitStep C st e) = stateEntries st ++ [e] := by
  obtain ⟨hparts, hcur, hnone, hnames⟩ := h
  match hst : st.cur with
  | none =>
    obtain ⟨hp, hn⟩ := hnone hst
    have hstep : splitStep C st e =
        ⟨st.parts, some (mkPartName st.partNum, [e]), e.size, st.partNum + 1⟩ := by
      simp [splitStep, hst]
    rw [hstep]
    refine ⟨⟨hparts, ?_, by simp, by simpa using hnames⟩, ?_⟩
    · intro c' hc'
      simp only [Option.some.injEq] at hc'
      subst hc'
      exact ⟨by simp [sumSizes], partOk_single C e, by simp [hp, hn], by simp [hp, hn]⟩
    · simp [stateEntries, hst]
  | some c =>
    obtain ⟨hsize, hok, hname, hnum⟩ := hcur c hst
    by_cases hbig : st.curSize + e.size > C
    · have hstep : splitStep C st e =
          ⟨st.parts ++ [c], some (mkPartName st.partNum, [e]), e.size, st.partNum + 1⟩ := by
        simp [splitStep, hst, if_pos hbig]
      rw [hstep]
      refine ⟨⟨?_, ?_, by simp, ?_⟩, ?_⟩
      · intro p hp
        rcases List.mem_append.mp hp with h | h
        · exact hparts p h
        · simp only [List.mem_singleton] at h; subst h; exact hok
      · intro c' hc'
        simp only [Option.some.injEq] at hc'
        subst hc'
        refine ⟨by simp [sumSizes], partOk_single C e, ?_, ?_⟩ <;>
          simp [hnum, List.length_append]
      · simp only [List.map_append, List.length_append, List.map_cons, List.map_nil,
          List.length_cons, List.length_nil]
        rw [hnames, hname]
        simp [List.range_succ]
      · simp [stateEntries, hst, List.append_assoc]
    · have hstep : splitStep C st e =
          ⟨st.parts, some (c.1, c.2 ++ [e]), st.curSize + e.size, st.partNum⟩ := by
        simp [splitStep, hst, if_neg hbig]
      rw [hstep]
      refine ⟨⟨hparts, ?_, by simp, by simpa using hnames⟩, ?_⟩
      · intro c' hc'
        simp only [Option.some.injEq] at hc'
        subst hc'
        refine ⟨by simp [sumSizes_append, hsize], Or.inl ?_, by simpa using hname,
          by simpa using hnum⟩
        rw [sumSizes_append, ← hsize]; omega
      · simp [stateEntries, hst, List.append_assoc]

theorem splitLoop_inv (C : Nat) :
    ∀ (es : List ZEntry) (st : SplitState), SplitInv C st →
      SplitInv C (es.foldl (splitStep C) st) ∧
      stateEntries (es.foldl (splitStep C) st) = stateEntries st ++ es := by
  intro es
  induction es with
  | nil => intro st h; simpa using h
  | cons e es ih =>
    intro st h
    obtain ⟨h1, h2⟩ := splitStep_inv C st e h
    obtain ⟨h3, h4⟩ := ih (splitStep C st e) h1
    exact ⟨h3, by simp [h4, h2, List.append_assoc]⟩

/-- C3: `split_zip` round-trip — concatenating the entries of all output
parts in part order reproduces the input entries exactly (names, bytes,
order); no part's total size exceeds the ceiling unless it is a single entry
that alone exceeds it; parts are named `part_1.zip`, `part_2.zip`, … in
order. -/
theorem split_zip_spec (entries : List ZEntry) (C : Nat) :
    ((split_zip entries C).map Prod.snd).flatten = entries ∧
    (∀ p ∈ split_zip entries C, partOk C p.2) ∧
    (split_zip entries C).map Prod.fst =
      (List.range (split_zip entries C).length).map (fun k => mkPartName (k + 1)) := by
  have hinv0 : SplitInv C ⟨[], none, 0, 1⟩ := by
    refine ⟨by simp, by simp, fun _ => ⟨rfl, rfl⟩, by simp⟩
  obtain ⟨⟨hparts, hcur, hnone, hnames⟩, hentries⟩ :=
    splitLoop_inv C entries ⟨[], none, 0, 1⟩ hinv0
  set st := entries.foldl (splitStep C) ⟨[], none, 0, 1⟩ with hst
  have hse : stateEntries st = entries := by
    simpa [stateEntries] using hentries
  match hc : st.cur with
  | none =>
    have hz : split_zip entries C = st.parts := by
      simp [split_zip, ← hst, hc]
    rw [hz]
    refine ⟨?_, hparts, hnames⟩
    simpa [stateEntries, hc] using hse
  | some c =>
    obtain ⟨_, hok, hname, _⟩ := hcur c hc
    have hz : split_zip entries C = st.parts ++ [c] := by
      simp [split_zip, ← hst, hc]
    rw [hz]
    refine ⟨?_, ?_, ?_⟩
    · simpa [stateEntries, hc] using hse
    · intro p hp
      rcases List.mem_append.mp hp with h | h
      · exact hparts p h
      · simp only [List.mem_singleton] at h; subst h; exact hok
    · simp only [List.map_append, List.length_append, List.map_cons, List.map_nil,
        List.length_cons, List.length_nil]
      rw [hnames, hname]
      simp [List.range_succ]

theorem digitsAux_eq : ∀ (fuel n : Nat), n ≤ fuel →
    digitsAux fuel n = (Nat.digits 10 n).reverse := by
  intro fuel
  induction fuel with
  | zero =>
    intro n hn
    have : n = 0 := Nat.le_zero.mp hn
    subst this
    simp [digitsAux]
  | succ fuel ih =>
    intro n hn
    by_cases h0 : n = 0
    · subst h0; simp [digitsAux]
    · have hdiv : n / 10 ≤ fuel := by
        have := Nat.div_lt_self (Nat.pos_of_ne_zero h0) (by norm_num : 1 < 10)
        omega
      rw [show digitsAux (fuel + 1) n = digitsAux fuel (n / 10) ++ [n % 10] by
            simp [digitsAux, h0],
          ih (n / 10) hdiv,
          Nat.digits_def' (by norm_num : (1:Nat) < 10) (Nat.pos_of_ne_zero h0)]
      simp

theorem digitsMSF_eq (n : Nat) : digitsMSF n = (Nat.digits 10 n).reverse :=
  digitsAux_eq n n le_rfl

theorem ofMSF_digitsMSF (n : Nat) : ofMSF (digitsMSF n) = n := by
  have hfold : ∀ L : List Nat, L.foldr (fun x y => 10 * y + x) 0 = Nat.ofDigits 10 L := by
    intro L
    induction L with
    | nil => simp
    | cons d L ihl => simp only [List.foldr_cons, ihl, Nat.ofDigits_cons]; ring
  rw [digitsMSF_eq, ofMSF, List.foldl_reverse, hfold, Nat.ofDigits_digits]

theorem digitsMSF_len_le {n : Nat} (h : n < 10 ^ 8) : (digitsMSF n).length ≤ 8 := by
  rw [digitsMSF_eq, List.length_reverse]
  by_cases h0 : n = 0
  · subst h0; simp
  · rw [Nat.digits_len 10 n (by norm_num) h0]
    have := Nat.log_lt_of_lt_pow h0 h
    omega

theorem digitsMSF_lt {n d : Nat} (h : d ∈ digitsMSF n) : d < 10 := by
  rw [digitsMSF_eq, List.mem_reverse] at h
  exact Nat.digits_lt_base (by norm_num) h

theorem pad8_length {n : Nat} (h : n < 10 ^ 8) : (pad8 n).length = 8 := by
  have := digitsMSF_len_le h
  simp only [pad8, List.length_append, List.length_replicate]
  omega

theorem ofMSF_replicate_zero (k : Nat) (l : List Nat) :
    ofMSF (List.replicate k 0 ++ l) = ofMSF l := by
  induction k with
  | zero => simp
  | succ k ih => simpa [ofMSF, List.replicate_succ] using ih

theorem ofMSF_pad8 (n : Nat) : ofMSF (pad8 n) = n := by
  rw [pad8, ofMSF_replicate_zero, ofMSF_digitsMSF]

theorem pad8_digits_lt {n d : Nat} (h : d ∈ pad8 n) : d < 10 := by
  rcases List.mem_append.mp h with h | h
  · have := List.eq_of_mem_replicate h
    omega
  · exact digitsMSF_lt h

theorem pyFormat08_eq (n : Nat) : pyFormat08 n = ⟨(pad8 n).map dChar⟩ := by
  have h0 : dChar 0 = '0' := by decide
  simp [pyFormat08, pad8, List.map_append, List.map_replicate, h0]

theorem dChar_lt_dChar {a b : Nat} (ha : a < 10) (hb : b < 10) (h : a < b) :
    dChar a < dChar b := by
  interval_cases a <;> interval_cases b <;> first | omega | decide

theorem ofMSF_foldl_acc : ∀ (l : List Nat) (acc : Nat),
    l.foldl (fun acc d => 10 * acc + d) acc = acc * 10 ^ l.length + ofMSF l := by
  intro l
  induction l with
  | nil => intro acc; simp [ofMSF]
  | cons d l ih =>
    intro acc
    have h1 := ih (10 * acc + d)
    have h2 := ih d
    have hof : ofMSF (d :: l) = d * 10 ^ l.length + ofMSF l := by
      simpa [ofMSF] using h2
    simp only [List.foldl_cons, List.length_cons, hof, h1]
    ring

theorem ofMSF_cons (a : Nat) (l : List Nat) :
    ofMSF (a :: l) = a * 10 ^ l.length + ofMSF l := by
  simpa [ofMSF] using ofMSF_foldl_acc l a

theorem ofMSF_lt_pow : ∀ (l : List Nat), (∀ d ∈ l, d < 10) → ofMSF l < 10 ^ l.length := by
  intro l
  induction l with
  | nil => intro _; simp [ofMSF]
  | cons a l ih =>
    intro h
    have ha : a < 10 := h a (List.mem_cons_self a l)
    have hl := ih (fun d hd => h d (List.mem_cons_of_mem a hd))
    rw [ofMSF_cons, List.length_cons, pow_succ]
    nlinarith

theorem msf_lex_of_lt : ∀ (xs ys : List Nat), xs.length = ys.length →
    (∀ d ∈ xs, d < 10) → (∀ d ∈ ys, d < 10) → ofMSF xs < ofMSF ys →
    ∀ (t u : List Char), List.Lex (· < ·) (xs.map dChar ++ t) (ys.map dChar ++ u) := by
  intro xs
  induction xs with
  | nil =>
    intro ys hlen _ _ hv
    have : ys = [] := (List.length_eq_zero.mp hlen.symm)
    subst this
    simp at hv
  | cons a xs ih =>
    intro ys hlen hx hy hv t u
    match ys with
    | [] => simp at hlen
    | b :: ys =>
      have hlen' : xs.length = ys.length := by simpa using hlen
      have ha : a < 10 := hx a (List.mem_cons_self a xs)
      have hb : b < 10 := hy b (List.mem_cons_self b ys)
      have hvx := ofMSF_cons a xs
      have hvy := ofMSF_cons b ys
      rcases Nat.lt_trichotomy a b with hab | hab | hab
      · exact List.Lex.rel (dChar_lt_dChar ha hb hab)
      · subst hab
        have hxv : ofMSF xs < ofMSF ys := by
          rw [hvx, hvy, hlen'] at hv
          omega
        exact List.Lex.cons
          (ih ys hlen' (fun d hd => hx d (List.mem_cons_of_mem a hd))
            (fun d hd => hy d (List.mem_cons_of_mem a hd)) hxv t u)
      · exfalso
        have hysb := ofMSF_lt_pow ys (fun d hd => hy d (List.mem_cons_of_mem b hd))
        rw [hvx, hvy, ← hlen'] at hv
        rw [← hlen'] at hysb
        have h1 : b * 10 ^ xs.length + 10 ^ xs.length ≤ a * 10 ^ xs.length := by
          calc b * 10 ^ xs.length + 10 ^ xs.length = (b + 1) * 10 ^ xs.length := by ring
            _ ≤ a * 10 ^ xs.length := Nat.mul_le_mul_right _ hab
        omega

theorem pyFormat08_lt {m n : Nat} (hmn : m < n) (hn : n < 10 ^ 8) :
    pyFormat08 m < pyFormat08 n := by
  rw [pyFormat08_eq, pyFormat08_eq, String.lt_iff_toList_lt]
  have hlen : (pad8 m).length = (pad8 n).length := by
    rw [pad8_length (lt_trans hmn hn), pad8_length hn]
  have hval : ofMSF (pad8 m) < ofMSF (pad8 n) := by
    rw [ofMSF_pad8, ofMSF_pad8]; exact hmn
  have hlex : List.Lex (· < ·) ((pad8 m).map dChar) ((pad8 n).map dChar) := by
    have := msf_lex_of_lt (pad8 m) (pad8 n) hlen (fun d hd => pad8_digits_lt hd)
      (fun d hd => pad8_digits_lt hd) hval [] []
    simpa using this
  exact hlex

theorem pyFormat08_length {n : Nat} (h : n < 10 ^ 8) : (pyFormat08 n).length = 8 := by
  rw [pyFormat08_eq]
  show ((pad8 n).map dChar).length = 8
  rw [List.length_map, pad8_length h]

theorem lt_ten_pow_eight {n : Nat} (h : n ≤ 99999999) : n < 10 ^ 8 := by
  have : (10 : Nat) ^ 8 = 100000000 := by norm_num
  omega

theorem digitsMSF_1e8_len : (digitsMSF 100000000).length = 9 := by
  have h1 : (Nat.digits 10 (10 ^ 8)).length = Nat.log 10 (10 ^ 8) + 1 :=
    Nat.digits_len 10 (10 ^ 8) (by norm_num) (by norm_num)
  have h2 : Nat.log 10 (10 ^ 8) = 8 := Nat.log_pow (by norm_num) 8
  have h3 : (100000000 : Nat) = 10 ^ 8 := by norm_num
  rw [digitsMSF_eq, List.length_reverse, h3, h1, h2]

theorem pyFormat08_1e8_length : (pyFormat08 100000000).length = 9 := by
  rw [pyFormat08_eq]
  show ((pad8 100000000).map dChar).length = 9
  rw [List.length_map, pad8, List.length_append, List.length_replicate, digitsMSF_1e8_len]

/-- C2 (counterexample): with `N = 100000000` pages, the naming loop
`f"{i:08d}"` assigns page `100000000` a nine-character name, so the claim
"the destination filename base is exactly the 8-character zero-padded
rendering of `i`, for every list of `N` pages" is false as stated. -/
theorem seqNames_nine_char_name_exists : ∃ s ∈ seqNames 100000000, s.length ≠ 8 := by
  refine ⟨pyFormat08 100000000, ?_, by rw [pyFormat08_1e8_length]; norm_num⟩
  refine List.mem_map.mpr ⟨99999999, List.mem_range.mpr (by norm_num), by norm_num⟩

/-- C2 (amended): for every list of `N ≤ 99999999` pages under the 8-digit
naming profile, the base name of page `i` is the 8-character zero-padded
decimal rendering of `i`, shared across all artifact kinds; the sequence of
names is strictly increasing, contiguous, and starts at `"00000001"`. -/
theorem eight_digit_naming (N : Nat) (hN : N ≤ 99999999) :
    (seqNames N).length = N ∧
    (∀ i, i < N → (seqNames N)[i]? = some (pyFormat08 (i + 1))) ∧
    (∀ s ∈ seqNames N, s.length = 8) ∧
    (seqNames N).Pairwise (· < ·) ∧
    (0 < N → (seqNames N)[0]? = some "00000001") ∧
    (∀ i ext, destFilename i ext = pyFormat08 i ++ ext) := by
  refine ⟨by simp [seqNames], ?_, ?_, ?_, ?_, fun i ext => rfl⟩
  · intro i h
    simp [seqNames, List.getElem?_map, List.getElem?_range, h]
  · intro s hs
    obtain ⟨k, hk, rfl⟩ := List.mem_map.mp hs
    have hkN : k < N := List.mem_range.mp hk
    exact pyFormat08_length (lt_ten_pow_eight (by omega))
  · unfold seqNames
    rw [List.pairwise_map]
    refine List.Pairwise.imp_of_mem ?_ (List.pairwise_lt_range N)
    intro a b ha hb hab
    have hbN : b < N := List.mem_range.mp hb
    exact pyFormat08_lt (by omega) (lt_ten_pow_eight (by omega))
  · intro h
    have h1 : pyFormat08 1 = "00000001" := by decide
    simp [seqNames, List.getElem?_map, List.getElem?_range, h, h1]

/-- C2 (witness): the amended statement, instantiated at `N = 3`. -/
theorem eight_digit_naming_witness :
    3 ≤ 99999999 ∧
    ((seqNames 3).length = 3 ∧
    (∀ i, i < 3 → (seqNames 3)[i]? = some (pyFormat08 (i + 1))) ∧
    (∀ s ∈ seqNames 3, s.length = 8) ∧
    (seqNames 3).Pairwise (· < ·) ∧
    (0 < 3 → (seqNames 3)[0]? = some "00000001") ∧
    (∀ i ext, destFilename i ext = pyFormat08 i ++ ext)) :=
  ⟨by norm_num, eight_digit_naming 3 (by norm_num)⟩

theorem extractIds_ok (L : List MetsLeaf) (h : ∀ l ∈ L, l.fileids ≠ []) :
    extractIds L = Except.ok (L.map (fun d => stripFileId (d.fileids.headD []))) := by
  induction L with
  | nil => rfl
  | cons d ds ih =>
    have hd : d.fileids ≠ [] := h d (List.mem_cons_self d ds)
    obtain ⟨f, fs, hf⟩ := List.exists_cons_of_ne_nil hd
    have hds := ih (fun l hl => h l (List.mem_cons_of_mem d hl))
    simp [extractIds, hf, hds]

theorem leafLe_trans : ∀ (a b c : MetsLeaf),
    decide (a.order ≤ b.order) → decide (b.order ≤ c.order) →
    decide (a.order ≤ c.order) := by
  intro a b c hab hbc
  simp only [decide_eq_true_eq] at *
  omega

theorem leafLe_total : ∀ (a b : MetsLeaf),
    decide (a.order ≤ b.order) || decide (b.order ≤ a.order) := by
  intro a b
  simp only [Bool.or_eq_true, decide_eq_true_eq]
  omega

theorem sortLeaves_perm (leaves : List MetsLeaf) : (sortLeaves leaves).Perm leaves :=
  List.mergeSort_perm leaves _

theorem sortLeaves_sorted (leaves : List MetsLeaf) :
    (sortLeaves leaves).Pairwise (fun a b => a.order ≤ b.order) := by
  have := List.sorted_mergeSort leafLe_trans leafLe_total leaves
  refine this.imp ?_
  intro a b h
  simpa using h

theorem sorted_perm_distinct_eq : ∀ {l₁ l₂ : List MetsLeaf}, l₁.Perm l₂ →
    l₁.Pairwise (fun a b => a.order ≤ b.order) →
    l₂.Pairwise (fun a b => a.order ≤ b.order) →
    l₁.Pairwise (fun a b => a.order ≠ b.order) → l₁ = l₂ := by
  intro l₁
  induction l₁ with
  | nil =>
    intro l₂ hp _ _ _
    exact (hp.symm.eq_nil).symm
  | cons a t₁ ih =>
    intro l₂ hp hs₁ hs₂ hd
    match l₂ with
    | [] => exact absurd hp.eq_nil (by simp)
    | b :: t₂ =>
      have hab : a = b := by
        rcases List.mem_cons.mp (hp.subset (List.mem_cons_self a t₁)) with h | hat₂
        · exact h
        · rcases List.mem_cons.mp (hp.symm.subset (List.mem_cons_self b t₂)) with h | hbt₁
          · exact h.symm
          · have h1 : a.order ≤ b.order := (List.pairwise_cons.mp hs₁).1 b hbt₁
            have h2 : b.order ≤ a.order := (List.pairwise_cons.mp hs₂).1 a hat₂
            have h3 : a.order ≠ b.order := (List.pairwise_cons.mp hd).1 b hbt₁
            omega
      subst hab
      have := ih hp.cons_inv (List.pairwise_cons.mp hs₁).2 (List.pairwise_cons.mp hs₂).2
        (List.pairwise_cons.mp hd).2
      rw [this]

theorem sortLeaves_perm_invariant {leaves leaves2 : List MetsLeaf}
    (hdist : leaves.Pairwise (fun a b => a.order ≠ b.order))
    (hp : leaves2.Perm leaves) : sortLeaves leaves2 = sortLeaves leaves := by
  have hperm : (sortLeaves leaves2).Perm (sortLeaves leaves) :=
    ((sortLeaves_perm leaves2).trans hp).trans (sortLeaves_perm leaves).symm
  refine sorted_perm_distinct_eq hperm (sortLeaves_sorted leaves2)
    (sortLeaves_sorted leaves) ?_
  exact (((sortLeaves_perm leaves2).trans hp).pairwise_iff
    (fun h => Ne.symm h)).mpr hdist

/-- C1: on a document whose qualifying leaves each carry a `FILEID`
reference, `get_file_ids` succeeds and returns one identifier per leaf,
in ascending `ORDER` order — independent of the document traversal order
when `ORDER` values are distinct — each identifier being the leaf's first
`FILEID` with one leading `f-` and one trailing `_m` or `_d` stripped. -/
theorem get_file_ids_spec (leaves : List MetsLeaf)
    (hleaf : ∀ l ∈ leaves, l.fileids ≠ []) :
    ∃ ids, get_file_ids leaves = Except.ok ids ∧
      ids.length = leaves.length ∧
      ids = (sortLeaves leaves).map (fun d => stripFileId (d.fileids.headD [])) ∧
      ((sortLeaves leaves).map (fun d => d.order)).Pairwise (· ≤ ·) ∧
      (∀ b : List Char, stripFileId ('f' :: '-' :: (b ++ ['_', 'm'])) = b ∧
          stripFileId ('f' :: '-' :: (b ++ ['_', 'd'])) = b) ∧
      (leaves.Pairwise (fun a b => a.order ≠ b.order) →
        ∀ leaves2, leaves2.Perm leaves → get_file_ids leaves2 = get_file_ids leaves) := by
  have hsort : ∀ l ∈ sortLeaves leaves, l.fileids ≠ [] :=
    fun l hl => hleaf l ((sortLeaves_perm leaves).subset hl)
  refine ⟨_, extractIds_ok (sortLeaves leaves) hsort, ?_, rfl, ?_, ?_, ?_⟩
  · rw [List.length_map]
    exact (sortLeaves_perm leaves).length_eq
  · have := sortLeaves_sorted leaves
    rw [List.pairwise_map]
    exact this
  · intro b
    constructor <;> simp [stripFileId, stripPrefixF, stripSuffixMD, List.reverse_append]
  · intro hdist leaves2 hp
    unfold get_file_ids
    rw [sortLeaves_perm_invariant hdist hp]

/-- C1 (witness): the specification instantiated on the spec's own scenario,
a three-leaf document in traversal order `ORDER = 10, 5, 20`. -/
theorem get_file_ids_spec_witness :
    (∀ l ∈ [(⟨10, [['f', '-', 'x', '_', 'm']]⟩ : MetsLeaf),
            ⟨5, [['f', '-', 'y', '_', 'd']]⟩,
            ⟨20, [['f', '-', 'z', '_', 'm']]⟩], l.fileids ≠ []) ∧
    (∃ ids, get_file_ids [(⟨10, [['f', '-', 'x', '_', 'm']]⟩ : MetsLeaf),
            ⟨5, [['f', '-', 'y', '_', 'd']]⟩, ⟨20, [['f', '-', 'z', '_', 'm']]⟩] =
        Except.ok ids ∧
      ids.length = 3 ∧
      ids = (sortLeaves [(⟨10, [['f', '-', 'x', '_', 'm']]⟩ : MetsLeaf),
            ⟨5, [['f', '-', 'y', '_', 'd']]⟩, ⟨20, [['f', '-', 'z', '_', 'm']]⟩]).map
          (fun d => stripFileId (d.fileids.headD [])) ∧
      ((sortLeaves [(⟨10, [['f', '-', 'x', '_', 'm']]⟩ : MetsLeaf),
            ⟨5, [['f', '-', 'y', '_', 'd']]⟩, ⟨20, [['f', '-', 'z', '_', 'm']]⟩]).map
          (fun d => d.order)).Pairwise (· ≤ ·) ∧
      (∀ b : List Char, stripFileId ('f' :: '-' :: (b ++ ['_', 'm'])) = b ∧
          stripFileId ('f' :: '-' :: (b ++ ['_', 'd'])) = b) ∧
      ([(⟨10, [['f', '-', 'x', '_', 'm']]⟩ : MetsLeaf),
            ⟨5, [['f', '-', 'y', '_', 'd']]⟩, ⟨20, [['f', '-', 'z', '_', 'm']]⟩].Pairwise
          (fun a b => a.order ≠ b.order) →
        ∀ leaves2, leaves2.Perm [(⟨10, [['f', '-', 'x', '_', 'm']]⟩ : MetsLeaf),
            ⟨5, [['f', '-', 'y', '_', 'd']]⟩, ⟨20, [['f', '-', 'z', '_', 'm']]⟩] →
          get_file_ids leaves2 =
            get_file_ids [(⟨10, [['f', '-', 'x', '_', 'm']]⟩ : MetsLeaf),
              ⟨5, [['f', '-', 'y', '_', 'd']]⟩, ⟨20, [['f', '-', 'z', '_', 'm']]⟩])) :=
  ⟨by decide, get_file_ids_spec _ (by decide)⟩

/-- C6 (counterexample): `get_file_ids` does not fail on a document with no
qualifying leaves (it returns the empty list) nor on a document whose two
leaves share `ORDER = 1` (it returns both identifiers); the code has no
`StructureError` or `DuplicateOrderError` at all. -/
theorem get_file_ids_never_raises :
    get_file_ids [] = Except.ok [] ∧
    get_file_ids [(⟨1, [['f', '-', 'a', '_', 'm']]⟩ : MetsLeaf),
        ⟨1, [['f', '-', 'b', '_', 'm']]⟩] =
      Except.ok [['a'], ['b']] := by
  constructor
  · simp [get_file_ids, sortLeaves, extractIds]
  · show extractIds (sortLeaves [(⟨1, [['f', '-', 'a', '_', 'm']]⟩ : MetsLeaf),
        ⟨1, [['f', '-', 'b', '_', 'm']]⟩]) = Except.ok [['a'], ['b']]
    rw [show sortLeaves [(⟨1, [['f', '-', 'a', '_', 'm']]⟩ : MetsLeaf),
        ⟨1, [['f', '-', 'b', '_', 'm']]⟩] = [(⟨1, [['f', '-', 'a', '_', 'm']]⟩ : MetsLeaf),
        ⟨1, [['f', '-', 'b', '_', 'm']]⟩] from List.mergeSort_of_sorted (by decide)]
    rfl

/-- C6 (amended): on a document with no qualifying leaves `get_file_ids`
returns `ok []`, and on a document whose two leaves share the same `ORDER`
value it silently returns both identifiers, in document order (the sort is
stable), rather than failing. -/
theorem get_file_ids_degenerate (l1 l2 : MetsLeaf) (heq : l1.order = l2.order)
    (hf1 : l1.fileids ≠ []) (hf2 : l2.fileids ≠ []) :
    get_file_ids [] = Except.ok [] ∧
    get_file_ids [l1, l2] =
      Except.ok [stripFileId (l1.fileids.headD []), stripFileId (l2.fileids.headD [])] := by
  refine ⟨by simp [get_file_ids, sortLeaves, extractIds], ?_⟩
  unfold get_file_ids
  have hsorted : sortLeaves [l1, l2] = [l1, l2] := by
    apply List.mergeSort_of_sorted
    refine List.pairwise_cons.mpr ⟨?_, List.pairwise_singleton _ _⟩
    intro b hb
    simp only [List.mem_singleton] at hb
    subst hb
    simp [heq]
  rw [hsorted, extractIds_ok [l1, l2] ?_]
  · simp
  · intro l hl
    rcases List.mem_cons.mp hl with h | h
    · subst h; exact hf1
    · simp only [List.mem_singleton] at h; subst h; exact hf2

/-- C6 (witness): the amended statement at two concrete leaves sharing
`ORDER = 7`. -/
theorem get_file_ids_degenerate_witness :
    ((⟨7, [['f', '-', 'p', '_', 'm']]⟩ : MetsLeaf).order =
      (⟨7, [['f', '-', 'q', '_', 'd']]⟩ : MetsLeaf).order) ∧
    ((⟨7, [['f', '-', 'p', '_', 'm']]⟩ : MetsLeaf).fileids ≠ []) ∧
    ((⟨7, [['f', '-', 'q', '_', 'd']]⟩ : MetsLeaf).fileids ≠ []) ∧
    (get_file_ids [] = Except.ok [] ∧
    get_file_ids [(⟨7, [['f', '-', 'p', '_', 'm']]⟩ : MetsLeaf),
        ⟨7, [['f', '-', 'q', '_', 'd']]⟩] =
      Except.ok [stripFileId ((⟨7, [['f', '-', 'p', '_', 'm']]⟩ : MetsLeaf).fileids.headD []),
        stripFileId ((⟨7, [['f', '-', 'q', '_', 'd']]⟩ : MetsLeaf).fileids.headD [])]) :=
  ⟨by decide, by decide, by decide,
    get_file_ids_degenerate _ _ (by decide) (by decide) (by decide)⟩

theorem pyLines_append_newline (w rest : List Char) (hw : '\n' ∉ w) :
    pyLines (w ++ '\n' :: rest) = (w ++ ['\n']) :: pyLines rest := by
  induction w with
  | nil => simp [pyLines]
  | cons c w ih =>
    have hc : ¬(c = '\n') := fun h => hw (h ▸ List.mem_cons_self c w)
    have hw' : '\n' ∉ w := fun h => hw (List.mem_cons_of_mem c h)
    simp only [List.cons_append, pyLines, List.append_eq, if_neg hc, ih hw']

theorem pyLines_flatten (ls : List (List Char)) (h : ∀ l ∈ ls, '\n' ∉ l) :
    pyLines ((ls.map (fun l => l ++ ['\n'])).flatten) = ls.map (fun l => l ++ ['\n']) := by
  induction ls with
  | nil => simp [pyLines]
  | cons l ls ih =>
    have hl : '\n' ∉ l := h l (List.mem_cons_self l ls)
    have hls := ih (fun w hw => h w (List.mem_cons_of_mem l hw))
    simp only [List.map_cons, List.flatten_cons, List.append_assoc, List.singleton_append]
    rw [pyLines_append_newline l _ hl, hls]

theorem pyLines_no_newline : ∀ (w : List Char), '\n' ∉ w → w ≠ [] → pyLines w = [w] := by
  intro w
  induction w with
  | nil => intro _ h; exact absurd rfl h
  | cons c w ih =>
    intro hw _
    have hc : ¬(c = '\n') := fun h => hw (h ▸ List.mem_cons_self c w)
    have hw' : '\n' ∉ w := fun h => hw (List.mem_cons_of_mem c h)
    by_cases hwe : w = []
    · subst hwe; simp [pyLines, hc]
    · simp only [pyLines, if_neg hc, ih hw' hwe]

theorem remove_control_chars_lines (isC : Char → Bool) (hn : isC '\n' = true)
    (s : List Char) :
    pyLines (remove_control_chars isC s) =
      (pyLines s).map (fun l => l.filter (fun c => !isC c) ++ ['\n']) := by
  unfold remove_control_chars
  have hshape : (pyLines s).map (fun l => l.filter (fun c => !isC c) ++ ['\n']) =
      ((pyLines s).map (fun l => l.filter (fun c => !isC c))).map (fun l => l ++ ['\n']) := by
    rw [List.map_map]; rfl
  rw [hshape]
  apply pyLines_flatten
  intro l hl
  obtain ⟨w, _, rfl⟩ := List.mem_map.mp hl
  intro hmem
  have := (List.mem_filter.mp hmem).2
  rw [hn] at this
  cases this

/-- C7: the content cleaner is idempotent. The only fact about the Unicode
category-C table this needs is that newline is category Cc. -/
theorem remove_control_chars_idempotent (isC : Char → Bool) (hn : isC '\n' = true)
    (x : List Char) :
    remove_control_chars isC (remove_control_chars isC x) = remove_control_chars isC x := by
  conv_lhs => rw [remove_control_chars]
  rw [remove_control_chars_lines isC hn x, List.map_map]
  unfold remove_control_chars
  congr 1
  apply List.map_congr_left
  intro l _
  simp [Function.comp, List.filter_append, List.filter_filter, hn]

/-- C7 (witness): idempotence at a concrete text containing a control
character and an unterminated final line. -/
theorem remove_control_chars_idempotent_witness :
    isCtrlAscii '\n' = true ∧
    remove_control_chars isCtrlAscii
        (remove_control_chars isCtrlAscii ['a', '\x07', 'b', '\n', 'c']) =
      remove_control_chars isCtrlAscii ['a', '\x07', 'b', '\n', 'c'] :=
  ⟨by decide, remove_control_chars_idempotent isCtrlAscii (by decide)
    ['a', '\x07', 'b', '\n', 'c']⟩

/-- C9: one cleaning pass preserves the line count, terminates every output
line with exactly one newline, and — precisely because of the appended final
newline — changes any nonempty clean content that lacks one. -/
theorem remove_control_chars_line_structure (isC : Char → Bool) (hn : isC '\n' = true)
    (x : List Char) :
    (pyLines (remove_control_chars isC x)).length = (pyLines x).length ∧
    (∀ l ∈ pyLines (remove_control_chars isC x), ∃ w, l = w ++ ['\n'] ∧ '\n' ∉ w) ∧
    (∀ y : List Char, y ≠ [] → (∀ c ∈ y, isC c = false) →
      remove_control_chars isC y = y ++ ['\n'] ∧ remove_control_chars isC y ≠ y) := by
  refine ⟨?_, ?_, ?_⟩
  · rw [remove_control_chars_lines isC hn x, List.length_map]
  · intro l hl
    rw [remove_control_chars_lines isC hn x] at hl
    obtain ⟨w, _, rfl⟩ := List.mem_map.mp hl
    refine ⟨_, rfl, ?_⟩
    intro hmem
    have := (List.mem_filter.mp hmem).2
    rw [hn] at this
    cases this
  · intro y hne hclean
    have hnl : '\n' ∉ y := by
      intro h
      have := hclean '\n' h
      rw [hn] at this
      cases this
    have hfil : y.filter (fun c => !isC c) = y := by
      apply List.filter_eq_self.mpr
      intro c hc
      simp [hclean c hc]
    have heq : remove_control_chars isC y = y ++ ['\n'] := by
      unfold remove_control_chars
      rw [pyLines_no_newline y hnl hne]
      simp [hfil]
    refine ⟨heq, ?_⟩
    rw [heq]
    intro hcontra
    have := congrArg List.length hcontra
    simp at this

/-- C9 (witness): the line-structure statement at a concrete text whose
final line is unterminated. -/
theorem remove_control_chars_line_structure_witness :
    isCtrlAscii '\n' = true ∧
    ((pyLines (remove_control_chars isCtrlAscii ['a', '\n', 'b'])).length =
        (pyLines ['a', '\n', 'b']).length ∧
    (∀ l ∈ pyLines (remove_control_chars isCtrlAscii ['a', '\n', 'b']),
        ∃ w, l = w ++ ['\n'] ∧ '\n' ∉ w) ∧
    (∀ y : List Char, y ≠ [] → (∀ c ∈ y, isCtrlAscii c = false) →
      remove_control_chars isCtrlAscii y = y ++ ['\n'] ∧
        remove_control_chars isCtrlAscii y ≠ y)) :=
  ⟨by decide, remove_control_chars_line_structure isCtrlAscii (by decide) ['a', '\n', 'b']⟩

theorem pyFormat08_append_lt {m n : Nat} (hmn : m < n) (hn : n < 10 ^ 8) (t : String) :
    pyFormat08 m ++ t < pyFormat08 n ++ t := by
  rw [pyFormat08_eq, pyFormat08_eq, String.lt_iff_toList_lt]
  show (pad8 m).map dChar ++ t.toList < (pad8 n).map dChar ++ t.toList
  have hlen : (pad8 m).length = (pad8 n).length := by
    rw [pad8_length (lt_trans hmn hn), pad8_length hn]
  have hval : ofMSF (pad8 m) < ofMSF (pad8 n) := by
    rw [ofMSF_pad8, ofMSF_pad8]; exact hmn
  exact msf_lex_of_lt (pad8 m) (pad8 n) hlen (fun d hd => pad8_digits_lt hd)
    (fun d hd => pad8_digits_lt hd) hval t.toList t.toList

theorem pdLe_trans : ∀ (a b c : String × String),
    decide (a.1 ≤ b.1) → decide (b.1 ≤ c.1) → decide (a.1 ≤ c.1) := by
  intro a b c hab hbc
  simp only [decide_eq_true_eq] at *
  exact le_trans hab hbc

theorem pdLe_total : ∀ (a b : String × String),
    decide (a.1 ≤ b.1) || decide (b.1 ≤ a.1) := by
  intro a b
  simp only [Bool.or_eq_true, decide_eq_true_eq]
  exact le_total a.1 b.1

theorem pagedata_pairwise {n : Nat} (hN : n ≤ 99999999) :
    (pagedataEntries n).Pairwise (fun a b => decide (a.1 ≤ b.1) = true) := by
  unfold pagedataEntries
  rw [List.pairwise_map]
  refine List.Pairwise.imp_of_mem ?_ (List.pairwise_lt_range n)
  intro a b _ hb hab
  have hbN : b < n := List.mem_range.mp hb
  simp only [decide_eq_true_eq]
  exact le_of_lt (pyFormat08_append_lt (by omega) (lt_ten_pow_eight (by omega)) ".jp2")

theorem yamlSortKeys_pagedata {n : Nat} (hN : n ≤ 99999999) :
    yamlSortKeys (pagedataEntries n) = pagedataEntries n :=
  List.mergeSort_of_sorted (pagedata_pairwise hN)

theorem pyStrip_parts (l : List Char) : ∃ s t, l = s ++ pyStrip l ++ t := by
  refine ⟨l.takeWhile isPyWs, ((l.dropWhile isPyWs).reverse.takeWhile isPyWs).reverse, ?_⟩
  have h1 : l.takeWhile isPyWs ++ l.dropWhile isPyWs = l :=
    List.takeWhile_append_dropWhile isPyWs l
  have h3 : (l.dropWhile isPyWs).reverse.takeWhile isPyWs ++
      (l.dropWhile isPyWs).reverse.dropWhile isPyWs = (l.dropWhile isPyWs).reverse :=
    List.takeWhile_append_dropWhile isPyWs (l.dropWhile isPyWs).reverse
  have h2 : l.dropWhile isPyWs =
      pyStrip l ++ ((l.dropWhile isPyWs).reverse.takeWhile isPyWs).reverse := by
    unfold pyStrip
    calc l.dropWhile isPyWs
        = (l.dropWhile isPyWs).reverse.reverse := (List.reverse_reverse _).symm
      _ = ((l.dropWhile isPyWs).reverse.takeWhile isPyWs ++
            (l.dropWhile isPyWs).reverse.dropWhile isPyWs).reverse := by rw [h3]
      _ = ((l.dropWhile isPyWs).reverse.dropWhile isPyWs).reverse ++
            ((l.dropWhile isPyWs).reverse.takeWhile isPyWs).reverse := by
          rw [List.reverse_append]
  rw [List.append_assoc, ← h2, h1]

theorem stageLoop_ledger (md5 : List Char → String) (isC : Char → Bool) :
    ∀ (ps : List PageArtifacts) (i : Nat),
    (stageLoop md5 isC i ps).2.1 =
      (stageLoop md5 isC i ps).1.map (fun f => mkLine md5 f.1 f.2) ∧
    (stageLoop md5 isC i ps).2.2 =
      (List.range ps.length).map (fun k => (destFilename (i + k) ".jp2", decRepr (i + k))) := by
  intro ps
  induction ps with
  | nil => intro i; simp [stageLoop]
  | cons p ps ih =>
    intro i
    obtain ⟨ha, hb⟩ := ih (i + 1)
    constructor
    · simp [stageLoop, List.map_append, ha]
    · show (destFilename i ".jp2", decRepr i) :: (stageLoop md5 isC (i + 1) ps).2.2 = _
      rw [hb, List.length_cons, List.range_succ_eq_map, List.map_cons, List.map_map]
      simp only [Nat.add_zero]
      congr 1
      apply List.map_congr_left
      intro k _
      have hk : i + (k + 1) = i + 1 + k := by omega
      simp only [Function.comp]
      rw [hk]

theorem stageLoop_pagedata (md5 : List Char → String) (isC : Char → Bool)
    (pages : List PageArtifacts) :
    (stageLoop md5 isC 1 pages).2.2 = pagedataEntries pages.length := by
  obtain ⟨_, hb⟩ := stageLoop_ledger md5 isC pages 1
  rw [hb, pagedataEntries]
  apply List.map_congr_left
  intro k _
  have hk : 1 + k = k + 1 := by omega
  rw [hk]

/-- C5: the checksum ledger has exactly one line per staged file, in staging
order, each line being `md5(final bytes) ++ " " ++ filename` where the final
bytes of the text artifacts are the *cleaned* bytes; the manifest is the last
staged file and its checksum line is the ledger's last line. -/
theorem checksum_ledger_spec (md5 : List Char → String) (isC : Char → Bool)
    (yamlPD : List (String × String) → List Char) (metaStr : List Char)
    (pages : List PageArtifacts) :
    (runPipeline md5 isC yamlPD metaStr pages).2 =
      (runPipeline md5 isC yamlPD metaStr pages).1.map (fun f => mkLine md5 f.1 f.2) ∧
    (runPipeline md5 isC yamlPD metaStr pages).1.getLast? =
      some ("meta.yml",
        pyStrip metaStr ++ '\n' :: yamlPD (yamlSortKeys (pagedataEntries pages.length))) ∧
    (runPipeline md5 isC yamlPD metaStr pages).2.getLast? =
      some (mkLine md5 "meta.yml"
        (pyStrip metaStr ++ '\n' :: yamlPD (yamlSortKeys (pagedataEntries pages.length)))) ∧
    (∀ i p, stagePage isC i p =
      [(destFilename i ".jp2", p.jp2),
       (destFilename i ".txt", remove_control_chars isC p.ocrTxt),
       (destFilename i ".html", remove_control_chars isC p.ocrHocr)]) := by
  obtain ⟨ha, _⟩ := stageLoop_ledger md5 isC pages 1
  refine ⟨?_, ?_, ?_, fun i p => rfl⟩
  · simp [runPipeline, ha, List.map_append]
  · simp [runPipeline, List.getLast?_concat, stageLoop_pagedata]
  · simp [runPipeline, List.getLast?_concat, stageLoop_pagedata]

/-- C4 (amended): for a page count `n ≤ 99999999` the manifest is the base
document's text with only outer whitespace stripped (the interior preserved
verbatim) plus the `pagedata` block; `pagedata` has exactly one entry per
page, keyed by the image artifact's destination filename with the stringified
SequenceNumber as `orderlabel`, and the `sort_keys` serialization emits the
keys exactly in SequenceNumber order. -/
theorem manifest_spec (metaStr : List Char) (n : Nat) (hN : n ≤ 99999999) :
    buildManifest metaStr n = (pyStrip metaStr ++ ['\n'], pagedataEntries n) ∧
    (∃ s t, metaStr = s ++ pyStrip metaStr ++ t) ∧
    (pagedataEntries n).length = n ∧
    (∀ k, k < n → (pagedataEntries n)[k]? =
      some (destFilename (k + 1) ".jp2", decRepr (k + 1))) ∧
    (∀ (md5 : List Char → String) (isC : Char → Bool) (pages : List PageArtifacts),
      pages.length = n → (stageLoop md5 isC 1 pages).2.2 = pagedataEntries n) := by
  refine ⟨?_, pyStrip_parts metaStr, by simp [pagedataEntries], ?_, ?_⟩
  · unfold buildManifest
    rw [yamlSortKeys_pagedata hN]
  · intro k hk
    simp [pagedataEntries, List.getElem?_map, List.getElem?_range, hk]
  · intro md5 isC pages hlen
    rw [stageLoop_pagedata, hlen]

/-- C4 (witness): the amended statement at the spec's scenario — a base
document `title: X` and two pages. -/
theorem manifest_spec_witness :
    2 ≤ 99999999 ∧
    (buildManifest ("title: X".toList) 2 =
      (pyStrip ("title: X".toList) ++ ['\n'], pagedataEntries 2) ∧
    (∃ s t, "title: X".toList = s ++ pyStrip ("title: X".toList) ++ t) ∧
    (pagedataEntries 2).length = 2 ∧
    (∀ k, k < 2 → (pagedataEntries 2)[k]? =
      some (destFilename (k + 1) ".jp2", decRepr (k + 1))) ∧
    (∀ (md5 : List Char → String) (isC : Char → Bool) (pages : List PageArtifacts),
      pages.length = 2 → (stageLoop md5 isC 1 pages).2.2 = pagedataEntries 2)) :=
  ⟨by norm_num, manifest_spec ("title: X".toList) 2 (by norm_num)⟩

theorem digits_ten_one : Nat.digits 10 1 = [1] := by
  rw [Nat.digits_def' (by norm_num : (1:Nat) < 10) (by norm_num : 0 < 1)]
  norm_num

theorem digits_ten_two : Nat.digits 10 2 = [2] := by
  rw [Nat.digits_def' (by norm_num : (1:Nat) < 10) (by norm_num : 0 < 2)]
  norm_num

theorem digitsMSF_1e8 : digitsMSF 100000000 = 1 :: List.replicate 8 0 := by
  rw [digitsMSF_eq, show (100000000 : Nat) = 10 ^ 8 * 1 by norm_num,
    Nat.digits_base_pow_mul (by norm_num) (by norm_num), digits_ten_one,
    List.reverse_append]
  simp

theorem digitsMSF_2e7 : digitsMSF 20000000 = 2 :: List.replicate 7 0 := by
  rw [digitsMSF_eq, show (20000000 : Nat) = 10 ^ 7 * 2 by norm_num,
    Nat.digits_base_pow_mul (by norm_num) (by norm_num), digits_ten_two,
    List.reverse_append]
  simp

theorem pad8_1e8 : pad8 100000000 = 1 :: List.replicate 8 0 := by
  rw [pad8, digitsMSF_1e8]
  simp

theorem pad8_2e7 : pad8 20000000 = 2 :: List.replicate 7 0 := by
  rw [pad8, digitsMSF_2e7]
  simp

theorem key_1e8_lt_key_2e7 :
    destFilename 100000000 ".jp2" < destFilename 20000000 ".jp2" := by
  show pyFormat08 100000000 ++ ".jp2" < pyFormat08 20000000 ++ ".jp2"
  rw [pyFormat08_eq, pyFormat08_eq, String.lt_iff_toList_lt]
  show (pad8 100000000).map dChar ++ ".jp2".toList <
    (pad8 20000000).map dChar ++ ".jp2".toList
  rw [pad8_1e8, pad8_2e7]
  simp only [List.map_cons, List.cons_append]
  exact List.Lex.rel (by decide)

/-- C4 (counterexample): with `100000000` pages the `sort_keys=True`
serialization of `pagedata` no longer lists the keys in SequenceNumber
order — `"100000000.jp2"` sorts before `"20000000.jp2"` and `"99999999.jp2"`
— so the claim is false as stated for unbounded page counts. -/
theorem manifest_sort_breaks_at_1e8 :
    yamlSortKeys (pagedataEntries 100000000) ≠ pagedataEntries 100000000 := by
  intro h
  have hpw : (pagedataEntries 100000000).Pairwise
      (fun a b => decide (a.1 ≤ b.1) = true) := by
    have hs := List.sorted_mergeSort pdLe_trans pdLe_total (pagedataEntries 100000000)
    rw [yamlSortKeys] at h
    rw [h] at hs
    exact hs
  rw [pagedataEntries, List.pairwise_map, List.pairwise_iff_getElem] at hpw
  have h2 := hpw 19999999 99999999 (by rw [List.length_range]; norm_num)
    (by rw [List.length_range]; norm_num) (by norm_num)
  simp only [List.getElem_range] at h2
  norm_num only at h2
  rw [decide_eq_true_eq] at h2
  exact absurd h2 (not_le.mpr key_1e8_lt_key_2e7)

/-- C10: on an archive containing zero entries, `split_zip` produces no part
files at all — in particular no empty `part_1.zip`. -/
theorem split_zip_empty (C : Nat) : split_zip [] C = [] := rfl

/-- C8: the `if size_gb > 15` guard fires exactly when the archive exceeds
`15 * 1024 ** 3` bytes — at or below the ceiling the splitting step is
skipped and the archive is left as is.  (When the guard does fire, the call
`util.split_zip(output_zip_file)` supplies one argument to a
three-parameter function and raises `TypeError`; see the results entry.) -/
theorem splitter_trigger :
    (∀ bytes : Nat, splitterInvoked bytes = true ↔ 15 * 1024 ^ 3 < bytes) ∧
    splitterInvoked (16 * 1024 ^ 3) = true ∧
    splitterInvoked (15 * 1024 ^ 3) = false := by
  have hiff : ∀ bytes : Nat, splitterInvoked bytes = true ↔ 15 * 1024 ^ 3 < bytes := by
    intro bytes
    simp only [splitterInvoked, sizeGb, gt_iff_lt, decide_eq_true_eq]
    rw [lt_div_iff₀ (by positivity)]
    constructor
    · intro h
      exact_mod_cast h
    · intro h
      exact_mod_cast h
  refine ⟨hiff, (hiff _).mpr (by norm_num), ?_⟩
  cases hb : splitterInvoked (15 * 1024 ^ 3)
  · rfl
  · have := (hiff _).mp hb
    omega
